import Mathlib

/-!
Verification of the pyDiffMap diffusion-map pipeline.

The repository ships `utils.py` (lookup tables, sparse matrix construction
from a function) together with the test suite for the diffusion-map core
(`diffusion_map.py`), whose source is not part of this tree.  Components of
the core (symmetrizer, normalizer, spectral post-processing, out-of-sample
extension, estimator orchestration) are therefore modelled from the
specification; `utils.py` is embedded directly.  Matrices are embedded as
functions on `Fin`-indexed coordinates with exact rational entries.
-/

namespace PyDiffMap

/-! ### Symmetrizer -/

/-- The three symmetrization policies accepted by `_symmetrize_matrix`. -/
inductive SymMode
  | and
  | or
  | average
deriving DecidableEq

/-- Modelled from the spec: `_symmetrize_matrix` (the Symmetrizer of the
diffusion-map core, absent from this tree).  For a sparse matrix `M`
(absent entries embedded as `0`):
`"and"` keeps an entry only where both `M[i,j]` and `M[j,i]` are present,
with the forward value; `"or"` keeps `M[i,j]` where present, otherwise
fills in `M[j,i]` from the transpose; `"average"` stores
`(M[i,j] + M[j,i]) / 2`, treating missing entries as `0`. -/
def symmetrizeMatrix {n : ℕ} (M : Fin n → Fin n → ℚ) (mode : SymMode) :
    Fin n → Fin n → ℚ :=
  match mode with
  | .and => fun i j => if M i j ≠ 0 ∧ M j i ≠ 0 then M i j else 0
  | .or => fun i j => if M i j ≠ 0 then M i j else M j i
  | .average => fun i j => (M i j + M j i) / 2

/-- The 2×2 test matrix `[[0, 2], [0, 3]]` used by `TestSymmetrization`. -/
def symTestMat : Fin 2 → Fin 2 → ℚ :=
  fun i j => if i = 0 ∧ j = 0 then 0 else if i = 0 ∧ j = 1 then 2
    else if i = 1 ∧ j = 0 then 0 else 3

/-! ### Normalizer: row-stochastic step -/

/-- Row degree of a (corrected) affinity matrix: `deg[i] = sum_j A[i,j]`. -/
def rowDegree {n : ℕ} (A : Fin n → Fin n → ℚ) (i : Fin n) : ℚ :=
  ∑ j, A i j

/-- Modelled from the spec: the row-stochastic normalization step of the
Normalizer (absent from this tree).  `P[i,j] = A'[i,j] / sum_j A'[i,j]`,
guarding degree values at exactly zero: an affinity-less row is left as the
zero row (no division) and flagged as isolated. -/
def rowNormalize {n : ℕ} (A : Fin n → Fin n → ℚ) :
    (Fin n → Fin n → ℚ) × (Fin n → Bool) :=
  (fun i j => if rowDegree A i = 0 then 0 else A i j / rowDegree A i,
   fun i => rowDegree A i = 0)

/-! ### utils.lookup_fxn -/

/-- Embeds `utils.lookup_fxn` from `src/pydiffmap/utils.py`.  Python's
`str` is abstracted as a representation function `r`.  The dictionary built
by the loop `for i in range(len(x)): lookup[str(x[i])] = vals[i]` (with
`vals` of the same length as `x`, per the docstring) is a left fold over the
index-aligned pairs, a later insertion overwriting an earlier one with an
equal key; the `KeyError` raised by the returned closure `lf` on an unknown
key is embedded as `none`. -/
def lookup_fxn {α β : Type} (r : α → String) (x : List α) (vals : List β) :
    α → Option β :=
  let lookup : String → Option β :=
    ((x.map r).zip vals).foldl
      (fun d p => fun s => if s = p.1 then some p.2 else d s)
      (fun _ => none)
  fun xi => lookup (r xi)

/-! ### utils.sparse_from_fxn -/

/-- A fitted scikit-learn `NearestNeighbors` object as consumed by
`utils.sparse_from_fxn`: the fitted data `_fit_X` together with the sparse
connectivity produced by `kneighbors_graph(Y, mode='connectivity')` —
`conn Y i j = true` iff fitted point `X[j]` is among the k nearest
neighbors of query point `Y[i]`. -/
structure NNeighbors (pt : Type) where
  fitX : List pt
  conn : List pt → ℕ → ℕ → Bool

/-- Shape of the sparse connectivity matrix `kneighbors_graph(Y)`:
`(len(Y), len(_fit_X))`. -/
def kneighborsGraphShape {pt : Type} (nbrs : NNeighbors pt) (Y : List pt) :
    ℕ × ℕ :=
  (Y.length, nbrs.fitX.length)

/-- A csr matrix with explicit shape and rational entries. -/
structure SparseMat where
  rows : ℕ
  cols : ℕ
  entry : ℕ → ℕ → ℚ

/-- Embeds `utils.sparse_from_fxn` from `src/pydiffmap/utils.py`:
`X = neighbors._fit_X`; `Y` defaults to `X` when passed as `None`; the
matrix has the shape of `kneighbors_graph(Y)` and stores
`function(Y[i], X[j])` at each connectivity entry `(i, j)`, zero
elsewhere. -/
def sparse_from_fxn {pt : Type} (nbrs : NNeighbors pt)
    (f : pt → pt → ℚ) (Yopt : Option (List pt)) : SparseMat :=
  let X := nbrs.fitX
  let Y := Yopt.getD X
  { rows := (kneighborsGraphShape nbrs Y).1
    cols := (kneighborsGraphShape nbrs Y).2
    entry := fun i j =>
      if h : i < Y.length ∧ j < X.length then
        if nbrs.conn Y i j then f (Y.get ⟨i, h.1⟩) (X.get ⟨j, h.2⟩)
        else 0
      else 0 }

/-- Test neighbors object for `sparse_from_fxn`: fitted data `[5, 7]`, with
a single connectivity entry at position `(0, 1)`. -/
def testNbrs : NNeighbors ℕ :=
  ⟨[5, 7], fun _ i j => decide (i = 0) && decide (j = 1)⟩

/-- Test function for `sparse_from_fxn`: `f(y, x) = 10 * y + x`. -/
def testFxn : ℕ → ℕ → ℚ := fun y x => 10 * (y : ℚ) + x

/-! ### Out-of-sample extension and orchestration -/

/-- Modelled from the spec: the Nystrom extension formula — the
eigenfunction value of a new point is `(1/eigenvalue_k) * (P_new ·
eigenvector_k)` for each retained eigenpair `k`, where `P_new` is the
row-normalized affinity of the new points against the fitted points. -/
def nystroemExtension {m n K : ℕ} (Pnew : Fin m → Fin n → ℚ)
    (evals : Fin K → ℚ) (evecs : Fin K → Fin n → ℚ) :
    Fin m → Fin K → ℚ :=
  fun y k => (1 / evals k) * ∑ i, Pnew y i * evecs k i

/-- Modelled from the spec: `transform` returns diffusion coordinates — the
Nystrom eigenfunction values each rescaled by its eigenvalue. -/
def transformDmap {m n K : ℕ} (Pnew : Fin m → Fin n → ℚ)
    (evals : Fin K → ℚ) (evecs : Fin K → Fin n → ℚ) :
    Fin m → Fin K → ℚ :=
  fun y k => evals k * nystroemExtension Pnew evals evecs y k

/-- Modelled from the spec: the `fit_transform` shortcut — the fitted
diffusion map, i.e. the fitted eigenvectors scaled by their eigenvalues,
returned directly without rebuilding the neighbor graph. -/
def fitTransformShortcut {n K : ℕ} (evals : Fin K → ℚ)
    (evecs : Fin K → Fin n → ℚ) : Fin n → Fin K → ℚ :=
  fun i k => evals k * evecs k i

/-! ### Error taxonomy, estimator state, transform -/

/-- The error taxonomy of the diffusion-map core. -/
inductive DMapError
  | insufficientDataError
  | invalidConfigurationError
  | invalidMeasureError
  | convergenceError
  | unfittedModelError
deriving DecidableEq

/-- Bandwidth configuration: a fixed scalar or the automatic BGH mode. -/
inductive EpsilonSpec
  | fixed (e : ℚ)
  | bgh
deriving DecidableEq

/-- Out-of-sample extension strategy. -/
inductive OOSMethod
  | nystroem
  | power
deriving DecidableEq

/-- Modelled from the spec: the fitted state stored by a successful `fit`
(the estimator orchestration is absent from this tree): the fitted data,
the resolved bandwidth `epsilon_fitted`, and the spectral state. -/
structure FittedModel (pt : Type) where
  data : List pt
  epsilonFitted : ℚ
  evals : List ℚ
  evecs : List (List ℚ)

/-- Modelled from the spec: a diffusion-map estimator — configuration plus
the optional fitted state (`none` before any successful fit). -/
structure Estimator (pt : Type) where
  epsilon : EpsilonSpec
  oos : OOSMethod
  fitted : Option (FittedModel pt)

/-- The dense kernel matrix of new points against the fitted points at
bandwidth `eps`: one kernel evaluation per (new, fitted) pair. -/
def oosKernelMatrix {pt : Type} (kernel : ℚ → pt → pt → ℚ) (eps : ℚ)
    (Y X : List pt) : List (List ℚ) :=
  Y.map (fun y => X.map (fun xj => kernel eps y xj))

/-- Modelled from the spec: both out-of-sample strategies build their
kernel matrix against the fitted data at the cached `epsilon_fitted`
(never re-estimating bandwidth) and then project using the stored
eigenpairs; the projection step, which is what distinguishes Nystrom from
the power iteration, is a parameter. -/
def oosExtend {pt : Type} (kernel : ℚ → pt → pt → ℚ)
    (project : OOSMethod → FittedModel pt → List (List ℚ) → List (List ℚ))
    (method : OOSMethod) (fm : FittedModel pt) (Y : List pt) :
    List (List ℚ) :=
  project method fm (oosKernelMatrix kernel fm.epsilonFitted Y fm.data)

/-- Modelled from the spec: `transform(new_data)` — fails with
`UnfittedModelError` before any successful fit, and otherwise delegates to
the out-of-sample extender with the configured strategy on the fitted
state. -/
def transform {pt : Type} (kernel : ℚ → pt → pt → ℚ)
    (project : OOSMethod → FittedModel pt → List (List ℚ) → List (List ℚ))
    (est : Estimator pt) (Y : List pt) :
    Except DMapError (List (List ℚ)) :=
  match est.fitted with
  | none => .error .unfittedModelError
  | some fm => .ok (oosExtend kernel project est.oos fm Y)

/-! ### Target-measure (TMDmap) fit -/

/-- A change-of-measure value as computed in floating point: a finite
rational or a non-finite result (infinity or NaN). -/
inductive MeasureValue
  | finite (v : ℚ)
  | nonfinite
deriving DecidableEq

/-- A measure value is invalid when negative or non-finite. -/
def invalidMeasure : MeasureValue → Bool
  | .finite v => decide (v < 0)
  | .nonfinite => true

/-- Modelled from the spec: the target-measure (TMDmap) fit evaluates the
user change-of-measure function at every fitted point, fails with
`InvalidMeasureError` when any value is negative or non-finite, and
otherwise proceeds with the computed measure vector (no fallback). -/
def tmdmapFit {pt : Type} (changeOfMeasure : pt → MeasureValue)
    (data : List pt) : Except DMapError (List pt × List MeasureValue) :=
  if (data.map changeOfMeasure).any invalidMeasure then
    .error .invalidMeasureError
  else
    .ok (data, data.map changeOfMeasure)

/-! ### KernelBuilder -/

/-- The edge-value placement of the KernelBuilder (as in
`utils.sparse_from_fxn`): one value per edge of the neighbor graph, zero
where no edge exists. -/
def buildAffinity {ι α : Type} [Zero α] (edge : ι → ι → Bool)
    (value : ι → ι → α) : ι → ι → α :=
  fun i j => if edge i j then value i j else 0

/-- Modelled from the spec: the default Gaussian kernel of the
KernelBuilder (kernel code absent from this tree):
`value = exp(-distance^2 / epsilon)`. -/
noncomputable def gaussianKernelValue {ι : Type} (eps : ℝ)
    (dist : ι → ι → ℝ) : ι → ι → ℝ :=
  fun i j => Real.exp (-(dist i j) ^ 2 / eps)

/-! ### SpectralSolver post-processing -/

/-- Descending order on eigenpairs, comparing eigenvalues. -/
def evalDesc (p q : ℚ × List ℚ) : Prop := q.1 ≤ p.1

instance : DecidableRel evalDesc :=
  fun p q => inferInstanceAs (Decidable (q.1 ≤ p.1))

instance : IsTotal (ℚ × List ℚ) evalDesc :=
  ⟨fun a b => le_total b.1 a.1⟩

instance : IsTrans (ℚ × List ℚ) evalDesc :=
  ⟨fun _ _ _ hab hbc => le_trans hbc hab⟩

/-- Modelled from the spec: the SpectralSolver post-processing (absent from
this tree).  Given the `n_evecs + 1` eigenpairs returned by the symmetric
eigensolver, sort by eigenvalue descending, drop the first (trivial,
eigenvalue ≈ 1) pair, and keep the next `n_evecs`. -/
def spectralPostProcess (pairs : List (ℚ × List ℚ)) (nEvecs : ℕ) :
    List (ℚ × List ℚ) :=
  ((List.insertionSort evalDesc pairs).drop 1).take nEvecs

end PyDiffMap

namespace PyDiffMap

/-- `C1`: for the input matrix `[[0,2],[0,3]]`, symmetrization returns exactly
`[[0,0],[0,3]]` in `"and"` mode, exactly `[[0,2],[2,3]]` in `"or"` mode, and
exactly `[[0,1],[1,3]]` in `"average"` mode, as exact equality of rationals. -/
theorem C1_symmetrize_test_matrix :
    (∀ i j, symmetrizeMatrix symTestMat .and i j =
      (fun i j : Fin 2 => if i = 1 ∧ j = 1 then (3 : ℚ) else 0) i j) ∧
    (∀ i j, symmetrizeMatrix symTestMat .or i j =
      (fun i j : Fin 2 => if i = 0 ∧ j = 0 then (0 : ℚ)
        else if i = 1 ∧ j = 1 then 3 else 2) i j) ∧
    (∀ i j, symmetrizeMatrix symTestMat .average i j =
      (fun i j : Fin 2 => if i = 0 ∧ j = 0 then (0 : ℚ)
        else if i = 1 ∧ j = 1 then 3 else 1) i j) := by
  refine ⟨?_, ?_, ?_⟩ <;>
    · intro i j
      fin_cases i <;> fin_cases j <;>
        norm_num [symmetrizeMatrix, symTestMat]

/-- `C2`: the transition operator produced by the Normalizer is
row-stochastic: every row whose degree is nonzero sums to `1`, and a row of
exactly zero degree is flagged as isolated and left as the zero row (no
division by zero, not dropped). -/
theorem C2_row_stochastic {n : ℕ} (A : Fin n → Fin n → ℚ) (i : Fin n) :
    (rowDegree A i ≠ 0 → ∑ j, (rowNormalize A).1 i j = 1) ∧
    (rowDegree A i = 0 →
      (rowNormalize A).2 i = true ∧ ∀ j, (rowNormalize A).1 i j = 0) := by
  constructor
  · intro hdeg
    simp only [rowNormalize, if_neg hdeg]
    rw [← Finset.sum_div]
    exact div_self hdeg
  · intro hdeg
    refine ⟨by simp [rowNormalize, hdeg], fun j => by simp [rowNormalize, hdeg]⟩

/-- Witness for `C2`: on the concrete matrix `[[1,1],[0,0]]`, row `0` has
nonzero degree and sums to `1`, while row `1` has zero degree, is flagged
isolated and stays zero. -/
theorem C2_row_stochastic_witness :
    (rowDegree (fun i _ : Fin 2 => if i = 0 then (1 : ℚ) else 0) 0 ≠ 0 ∧
      ∑ j, (rowNormalize (fun i _ : Fin 2 => if i = 0 then (1 : ℚ) else 0)).1 0 j = 1) ∧
    (rowDegree (fun i _ : Fin 2 => if i = 0 then (1 : ℚ) else 0) 1 = 0 ∧
      (rowNormalize (fun i _ : Fin 2 => if i = 0 then (1 : ℚ) else 0)).2 1 = true ∧
      ∀ j, (rowNormalize (fun i _ : Fin 2 => if i = 0 then (1 : ℚ) else 0)).1 1 j = 0) := by
  have h0 : rowDegree (fun i _ : Fin 2 => if i = 0 then (1 : ℚ) else 0) 0 ≠ 0 := by
    norm_num [rowDegree, Fin.sum_univ_two]
  have h1 : rowDegree (fun i _ : Fin 2 => if i = 0 then (1 : ℚ) else 0) 1 = 0 := by
    norm_num [rowDegree, Fin.sum_univ_two]
  exact ⟨⟨h0, (C2_row_stochastic _ 0).1 h0⟩,
    ⟨h1, (C2_row_stochastic _ 1).2 h1⟩⟩

/-- `C3`: after post-processing the `n_evecs + 1` solver eigenpairs, the
stored spectral state holds exactly `n_evecs` pairs, eigenvalues sorted in
descending order, each retained eigenvector of length equal to the number of
fit points; the discarded pair is the one of maximal eigenvalue (the trivial
eigenvalue ≈ 1 pair), and the rest are kept: discarded, not reordered. -/
theorem C3_spectral_state (pairs : List (ℚ × List ℚ)) (nEvecs npts : ℕ)
    (hlen : pairs.length = nEvecs + 1)
    (hvec : ∀ p ∈ pairs, p.2.length = npts) :
    (spectralPostProcess pairs nEvecs).length = nEvecs ∧
    List.Sorted evalDesc (spectralPostProcess pairs nEvecs) ∧
    (∀ p ∈ spectralPostProcess pairs nEvecs, p.2.length = npts) ∧
    ∃ triv, triv ∈ pairs ∧ (∀ p ∈ pairs, p.1 ≤ triv.1) ∧
      List.insertionSort evalDesc pairs =
        triv :: spectralPostProcess pairs nEvecs := by
  have hslen : (List.insertionSort evalDesc pairs).length = nEvecs + 1 := by
    rw [List.length_insertionSort, hlen]
  have hsorted := List.sorted_insertionSort evalDesc pairs
  obtain ⟨triv, rest, hcons⟩ :
      ∃ t r, List.insertionSort evalDesc pairs = t :: r := by
    cases h : List.insertionSort evalDesc pairs with
    | nil => rw [h] at hslen; simp at hslen
    | cons t r => exact ⟨t, r, rfl⟩
  have hrest : rest.length = nEvecs := by
    have h := hslen
    rw [hcons] at h
    simpa using h
  have hout : spectralPostProcess pairs nEvecs = rest := by
    unfold spectralPostProcess
    rw [hcons, List.drop_one, List.tail_cons, ← hrest, List.take_length]
  have hmem : ∀ p ∈ rest, p ∈ pairs := by
    intro p hp
    have : p ∈ List.insertionSort evalDesc pairs := by
      rw [hcons]; exact List.mem_cons_of_mem _ hp
    exact (List.mem_insertionSort evalDesc).mp this
  have hsc : List.Sorted evalDesc (triv :: rest) := hcons ▸ hsorted
  refine ⟨by rw [hout, hrest], by rw [hout]; exact hsc.of_cons,
    fun p hp => hvec p (hmem p (hout ▸ hp)), triv, ?_, ?_, by rw [hout, hcons]⟩
  · exact (List.mem_insertionSort evalDesc).mp (hcons ▸ List.mem_cons_self triv rest)
  · intro p hp
    have hp' : p ∈ triv :: rest := by
      rw [← hcons]
      exact (List.mem_insertionSort evalDesc).mpr hp
    rcases List.mem_cons.mp hp' with h | h
    · exact le_of_eq (congrArg Prod.fst h)
    · exact List.rel_of_sorted_cons hsc p h

/-- Witness for `C3`: the two solver pairs `[(1, [1, 1]), (1/2, [1, -1])]`
with `n_evecs = 1` and two fit points are post-processed into the single
pair `(1/2, [1, -1])`, with the trivial pair `(1, [1, 1])` discarded. -/
theorem C3_spectral_state_witness :
    ([((1 : ℚ), [(1 : ℚ), 1]), (1/2, [1, -1])].length = 1 + 1) ∧
    (∀ p ∈ [((1 : ℚ), [(1 : ℚ), 1]), (1/2, [1, -1])], p.2.length = 2) ∧
    ((spectralPostProcess [((1 : ℚ), [(1 : ℚ), 1]), (1/2, [1, -1])] 1).length = 1 ∧
     List.Sorted evalDesc (spectralPostProcess [((1 : ℚ), [(1 : ℚ), 1]), (1/2, [1, -1])] 1) ∧
     (∀ p ∈ spectralPostProcess [((1 : ℚ), [(1 : ℚ), 1]), (1/2, [1, -1])] 1, p.2.length = 2) ∧
     ∃ triv, triv ∈ [((1 : ℚ), [(1 : ℚ), 1]), (1/2, [1, -1])] ∧
       (∀ p ∈ [((1 : ℚ), [(1 : ℚ), 1]), (1/2, [1, -1])], p.1 ≤ triv.1) ∧
       List.insertionSort evalDesc [((1 : ℚ), [(1 : ℚ), 1]), (1/2, [1, -1])] =
         triv :: spectralPostProcess [((1 : ℚ), [(1 : ℚ), 1]), (1/2, [1, -1])] 1) := by
  have hvec : ∀ p ∈ [((1 : ℚ), [(1 : ℚ), 1]), (1/2, [1, -1])], p.2.length = 2 := by
    intro p hp
    rcases List.mem_cons.mp hp with h | h
    · rw [h]; rfl
    · rw [List.mem_singleton.mp h]; rfl
  exact ⟨rfl, hvec, C3_spectral_state _ 1 2 rfl hvec⟩

/-- Applying the dictionary built by a left fold of keyed insertions equals
looking up the last inserted pair with the queried key, i.e. the first
match in the reversed insertion order. -/
theorem dictFoldl_apply {β : Type} (l : List (String × β)) (s : String)
    (d0 : String → Option β) :
    (l.foldl (fun d p => fun t => if t = p.1 then some p.2 else d t) d0) s =
      match l.reverse.find? (fun p => s == p.1) with
      | some p => some p.2
      | none => d0 s := by
  induction l using List.reverseRecOn generalizing d0 with
  | nil => rfl
  | append_singleton l a ih =>
    rw [List.foldl_append, List.reverse_append, List.reverse_singleton,
      List.singleton_append]
    by_cases h : s = a.1
    · rw [List.find?_cons_of_pos _ (by simpa using h)]
      simp only [List.foldl_cons, List.foldl_nil, if_pos h]
    · rw [List.find?_cons_of_neg _ (by simpa using h)]
      simp only [List.foldl_cons, List.foldl_nil, if_neg h]
      exact ih d0

/-- `find?` on the reversal of a list returns the last matching element of
the list: the element at index `j`, when `j` matches and no later index
does. -/
theorem find_reverse_last {γ : Type} (l : List γ) (p : γ → Bool) (j : ℕ)
    (hj : j < l.length) (hmatch : p l[j] = true)
    (hafter : ∀ k, (hk : k < l.length) → j < k → p l[k] = false) :
    l.reverse.find? p = some l[j] := by
  induction l using List.reverseRecOn with
  | nil => exact absurd hj (Nat.not_lt_zero j)
  | append_singleton l a ih =>
    rw [List.reverse_append, List.reverse_singleton, List.singleton_append]
    have hlen : (l ++ [a]).length = l.length + 1 := by simp
    by_cases hja : j = l.length
    · have hgj : (l ++ [a])[j] = a := by
        subst hja; simp
      rw [List.find?_cons_of_pos _ (by rw [← hgj]; exact hmatch), hgj]
    · have hjl : j < l.length := by
        have := hj
        rw [hlen] at this
        exact lt_of_le_of_ne (Nat.lt_succ_iff.mp this) hja
      have hgj : (l ++ [a])[j] = l[j] := List.getElem_append_left hjl
      have hpa : p a = false := by
        have h := hafter l.length (by simp) hjl
        simpa using h
      rw [List.find?_cons_of_neg _ (by simp [hpa])]
      rw [hgj] at hmatch ⊢
      refine ih hjl hmatch ?_
      intro k hk hjk
      have hk' : k < (l ++ [a]).length := by
        rw [hlen]; exact Nat.lt_succ_of_lt hk
      have := hafter k hk' hjk
      rwa [List.getElem_append_left hk] at this

/-- `C9`: for equal-length `x` and `vals`, the lookup function built by
`lookup_fxn` maps any input whose string representation coincides with that
of the last matching element `x[j]` to `vals[j]` (so, when the
representations are pairwise distinct, each `x[i]` — and any value sharing
its representation — maps to `vals[i]`, and when two elements collide the
larger index wins), and raises `KeyError` (embedded as `none`) exactly on
inputs whose representation matches no element of `x`. -/
theorem C9_lookup_fxn {α β : Type} (r : α → String) (x : List α)
    (vals : List β) (hlen : x.length = vals.length) :
    (∀ j, (hj : j < x.length) →
      (∀ k, (hk : k < x.length) → j < k → r x[k] ≠ r x[j]) →
      ∀ y, r y = r x[j] →
        lookup_fxn r x vals y = some (vals.get ⟨j, hlen ▸ hj⟩)) ∧
    (∀ i, (hi : i < x.length) →
      (∀ j k, (hj : j < x.length) → (hk : k < x.length) → j ≠ k →
        r (x.get ⟨j, hj⟩) ≠ r (x.get ⟨k, hk⟩)) →
      ∀ y, r y = r x[i] →
        lookup_fxn r x vals y = some (vals.get ⟨i, hlen ▸ hi⟩)) ∧
    (∀ y, lookup_fxn r x vals y = none ↔ r y ∉ x.map r) := by
  have hzlen : ((x.map r).zip vals).length = x.length := by
    rw [List.length_zip, List.length_map, hlen, Nat.min_self, ← hlen]
  have hlast : ∀ j, (hj : j < x.length) →
      (∀ k, (hk : k < x.length) → j < k → r x[k] ≠ r x[j]) →
      ∀ y, r y = r x[j] →
        lookup_fxn r x vals y = some (vals.get ⟨j, hlen ▸ hj⟩) := by
    intro j hj hnolater y hy
    unfold lookup_fxn
    rw [dictFoldl_apply]
    rw [find_reverse_last ((x.map r).zip vals) (fun p => r y == p.1) j
      (hzlen ▸ hj)
      (by simp only [List.getElem_zip, List.getElem_map]
          exact beq_iff_eq.mpr hy)
      (by
        intro k hk hjk
        have hk' : k < x.length := hzlen ▸ hk
        simp only [List.getElem_zip, List.getElem_map, beq_eq_false_iff_ne]
        exact fun h => hnolater k hk' hjk (h.symm.trans hy))]
    simp only [List.getElem_zip, List.get_eq_getElem]
  refine ⟨hlast, ?_, ?_⟩
  · intro i hi hdistinct y hy
    refine hlast i hi ?_ y hy
    intro k hk hik
    exact hdistinct k i hk hi (Nat.ne_of_gt hik)
  · intro y
    unfold lookup_fxn
    rw [dictFoldl_apply]
    constructor
    · intro hnone hmem
      obtain ⟨i, hi, hri⟩ := List.getElem_of_mem hmem
      have hi' : i < x.length := by
        rw [List.length_map] at hi
        exact hi
      rcases hfind : ((x.map r).zip vals).reverse.find?
          (fun p => r y == p.1) with _ | q
      · have hall := List.find?_eq_none.mp hfind
        have hq : ((x.map r).zip vals).get ⟨i, hzlen ▸ hi'⟩ ∈
            ((x.map r).zip vals).reverse := by
          rw [List.mem_reverse]
          exact List.get_mem _ _ _
        have := hall _ hq
        simp only [List.get_eq_getElem, List.getElem_zip] at this
        rw [hri] at this
        exact this (beq_self_eq_true _)
      · rw [hfind] at hnone
        exact Option.noConfusion hnone
    · intro hnotmem
      rcases hfind : ((x.map r).zip vals).reverse.find?
          (fun p => r y == p.1) with _ | q
      · rw [hfind]
      · exfalso
        have hqmem := List.mem_reverse.mp (List.mem_of_find?_eq_some hfind)
        have hpq := List.find?_some hfind
        have hq1 : r y = q.1 := beq_iff_eq.mp hpq
        obtain ⟨a, b⟩ := q
        have := (List.of_mem_zip hqmem).1
        exact hnotmem (hq1 ▸ this)

/-- Witness for `C9`: with `str` on naturals, `x = [1, 2, 12]` and
`vals = [10, 20, 30]` of equal length, the lookup behaves as proved. -/
theorem C9_lookup_fxn_witness :
    ([1, 2, 12].length = [10, 20, 30].length) ∧
    ((∀ j, (hj : j < [1, 2, 12].length) →
      (∀ k, (hk : k < [1, 2, 12].length) → j < k →
        toString [1, 2, 12][k] ≠ toString [1, 2, 12][j]) →
      ∀ y : ℕ, toString y = toString [1, 2, 12][j] →
        lookup_fxn toString [1, 2, 12] [10, 20, 30] y =
          some ([10, 20, 30].get ⟨j, by simpa using hj⟩)) ∧
    (∀ i, (hi : i < [1, 2, 12].length) →
      (∀ j k, (hj : j < [1, 2, 12].length) → (hk : k < [1, 2, 12].length) →
        j ≠ k → toString ([1, 2, 12].get ⟨j, hj⟩) ≠
          toString ([1, 2, 12].get ⟨k, hk⟩)) →
      ∀ y : ℕ, toString y = toString [1, 2, 12][i] →
        lookup_fxn toString [1, 2, 12] [10, 20, 30] y =
          some ([10, 20, 30].get ⟨i, by simpa using hi⟩)) ∧
    (∀ y : ℕ, lookup_fxn toString [1, 2, 12] [10, 20, 30] y = none ↔
      toString y ∉ [1, 2, 12].map toString)) := by
  have h := C9_lookup_fxn (toString : ℕ → String) [1, 2, 12] [10, 20, 30] rfl
  exact ⟨rfl, h⟩

/-- `C10`: when `Y` is omitted (`None`), it defaults to the fitted data of
the neighbors object, producing the square self-affinity matrix; each
stored entry `(i, j)` equals the function applied with query point `Y[i]`
as first argument and reference point `X[j]` as second; the output shape
equals the shape of the neighbors' connectivity graph. -/
theorem C10_sparse_from_fxn {pt : Type} (nbrs : NNeighbors pt)
    (f : pt → pt → ℚ) :
    (sparse_from_fxn nbrs f none = sparse_from_fxn nbrs f (some nbrs.fitX) ∧
      (sparse_from_fxn nbrs f none).rows =
        (sparse_from_fxn nbrs f none).cols) ∧
    (∀ Y i j, (hi : i < Y.length) → (hj : j < nbrs.fitX.length) →
      nbrs.conn Y i j = true →
      (sparse_from_fxn nbrs f (some Y)).entry i j =
        f (Y.get ⟨i, hi⟩) (nbrs.fitX.get ⟨j, hj⟩)) ∧
    (∀ Y, ((sparse_from_fxn nbrs f (some Y)).rows,
        (sparse_from_fxn nbrs f (some Y)).cols) =
      kneighborsGraphShape nbrs Y) := by
  refine ⟨⟨rfl, rfl⟩, ?_, fun Y => rfl⟩
  intro Y i j hi hj hconn
  have hentry : (sparse_from_fxn nbrs f (some Y)).entry i j =
      if h : i < Y.length ∧ j < nbrs.fitX.length then
        if nbrs.conn Y i j then
          f (Y.get ⟨i, h.1⟩) (nbrs.fitX.get ⟨j, h.2⟩)
        else 0
      else 0 := rfl
  rw [hentry, dif_pos ⟨hi, hj⟩, if_pos hconn]

/-- Witness for `C10`: on the fitted data `[5, 7]` with a connectivity
entry at `(0, 1)`, the stored entry is `f(Y[0], X[1]) = f(5, 7) = 57`. -/
theorem C10_sparse_from_fxn_witness :
    (0 < ([5, 7] : List ℕ).length ∧ 1 < testNbrs.fitX.length ∧
      testNbrs.conn [5, 7] 0 1 = true) ∧
    (sparse_from_fxn testNbrs testFxn (some [5, 7])).entry 0 1 =
      testFxn (([5, 7] : List ℕ).get ⟨0, by decide⟩)
        (testNbrs.fitX.get ⟨1, by decide⟩) := by
  refine ⟨⟨by decide, by decide, rfl⟩, ?_⟩
  exact (C10_sparse_from_fxn testNbrs testFxn).2.1 [5, 7] 0 1
    (by decide) (by decide) rfl

/-- `C4`: `fit_transform(data)` and `fit(data)` followed by
`transform(data)` produce the same diffusion coordinates: when `P` is the
transition operator built on the fitted data itself and the stored
eigenpairs satisfy the eigen equation `P psi_k = lambda_k psi_k` with
`lambda_k` nonzero, the `fit_transform` shortcut output (the fitted scaled
eigenvectors, no neighbor graph rebuilt) coincides exactly with the
`transform` output on the same data. -/
theorem C4_fit_transform_equivalence {n K : ℕ} (P : Fin n → Fin n → ℚ)
    (evals : Fin K → ℚ) (evecs : Fin K → Fin n → ℚ)
    (heig : ∀ k i, ∑ l, P i l * evecs k l = evals k * evecs k i)
    (hnz : ∀ k, evals k ≠ 0) :
    ∀ i k, transformDmap P evals evecs i k =
      fitTransformShortcut evals evecs i k := by
  intro i k
  unfold transformDmap nystroemExtension fitTransformShortcut
  rw [heig k i, one_div, ← mul_assoc, mul_inv_cancel₀ (hnz k), one_mul]

/-- Witness for `C4`: the one-point transition operator `P = [[1]]` with the
eigenpair `(1, [1])` satisfies the eigen equation with nonzero eigenvalue,
and both paths produce the same coordinates. -/
theorem C4_fit_transform_equivalence_witness :
    ((∀ k i : Fin 1, ∑ l, (fun _ _ : Fin 1 => (1 : ℚ)) i l *
        (fun _ _ : Fin 1 => (1 : ℚ)) k l =
      (fun _ : Fin 1 => (1 : ℚ)) k * (fun _ _ : Fin 1 => (1 : ℚ)) k i) ∧
     (∀ k : Fin 1, (fun _ : Fin 1 => (1 : ℚ)) k ≠ 0)) ∧
    (∀ i k, transformDmap (fun _ _ : Fin 1 => (1 : ℚ))
        (fun _ : Fin 1 => (1 : ℚ)) (fun _ _ : Fin 1 => (1 : ℚ)) i k =
      fitTransformShortcut (fun _ : Fin 1 => (1 : ℚ))
        (fun _ _ : Fin 1 => (1 : ℚ)) i k) := by
  have heig : ∀ k i : Fin 1, ∑ l, (fun _ _ : Fin 1 => (1 : ℚ)) i l *
      (fun _ _ : Fin 1 => (1 : ℚ)) k l =
      (fun _ : Fin 1 => (1 : ℚ)) k * (fun _ _ : Fin 1 => (1 : ℚ)) k i := by
    intro k i
    simp
  have hnz : ∀ k : Fin 1, (fun _ : Fin 1 => (1 : ℚ)) k ≠ 0 :=
    fun k => one_ne_zero
  exact ⟨⟨heig, hnz⟩, C4_fit_transform_equivalence _ _ _ heig hnz⟩

/-- `C5`: on the fitted data itself, the Nystrom projection formula
`(1/lambda_k) * (P_new · psi_k)` recovers each fitted eigenvector exactly,
and `transform` returns each fitted eigenvector rescaled by its eigenvalue,
consistently with that formula. -/
theorem C5_transform_fitted_data {n K : ℕ} (P : Fin n → Fin n → ℚ)
    (evals : Fin K → ℚ) (evecs : Fin K → Fin n → ℚ)
    (heig : ∀ k i, ∑ l, P i l * evecs k l = evals k * evecs k i)
    (hnz : ∀ k, evals k ≠ 0) :
    (∀ i k, nystroemExtension P evals evecs i k = evecs k i) ∧
    (∀ i k, transformDmap P evals evecs i k = evals k * evecs k i) := by
  have hny : ∀ i k, nystroemExtension P evals evecs i k = evecs k i := by
    intro i k
    unfold nystroemExtension
    rw [heig k i, one_div, ← mul_assoc, inv_mul_cancel₀ (hnz k), one_mul]
  refine ⟨hny, fun i k => ?_⟩
  unfold transformDmap
  rw [hny i k]

/-- Witness for `C5`: the one-point transition operator `P = [[1]]` with the
eigenpair `(1, [2])` satisfies the eigen equation with nonzero eigenvalue;
the Nystrom formula recovers the eigenvector and `transform` rescales it. -/
theorem C5_transform_fitted_data_witness :
    ((∀ k i : Fin 1, ∑ l, (fun _ _ : Fin 1 => (1 : ℚ)) i l *
        (fun _ _ : Fin 1 => (2 : ℚ)) k l =
      (fun _ : Fin 1 => (1 : ℚ)) k * (fun _ _ : Fin 1 => (2 : ℚ)) k i) ∧
     (∀ k : Fin 1, (fun _ : Fin 1 => (1 : ℚ)) k ≠ 0)) ∧
    ((∀ i k, nystroemExtension (fun _ _ : Fin 1 => (1 : ℚ))
        (fun _ : Fin 1 => (1 : ℚ)) (fun _ _ : Fin 1 => (2 : ℚ)) i k =
      (fun _ _ : Fin 1 => (2 : ℚ)) k i) ∧
     (∀ i k, transformDmap (fun _ _ : Fin 1 => (1 : ℚ))
        (fun _ : Fin 1 => (1 : ℚ)) (fun _ _ : Fin 1 => (2 : ℚ)) i k =
      (fun _ : Fin 1 => (1 : ℚ)) k * (fun _ _ : Fin 1 => (2 : ℚ)) k i)) := by
  have heig : ∀ k i : Fin 1, ∑ l, (fun _ _ : Fin 1 => (1 : ℚ)) i l *
      (fun _ _ : Fin 1 => (2 : ℚ)) k l =
      (fun _ : Fin 1 => (1 : ℚ)) k * (fun _ _ : Fin 1 => (2 : ℚ)) k i := by
    intro k i
    simp
  have hnz : ∀ k : Fin 1, (fun _ : Fin 1 => (1 : ℚ)) k ≠ 0 :=
    fun k => one_ne_zero
  exact ⟨⟨heig, hnz⟩, C5_transform_fitted_data _ _ _ heig hnz⟩

/-- `C6`: under either out-of-sample strategy, `transform` fails with
`UnfittedModelError` whenever no fit has succeeded; after a fit it reuses
the cached `epsilon_fitted`: its result does not depend on the configured
bandwidth mode, and every kernel evaluation happens at the fitted model's
`epsilon_fitted` against the fitted data. -/
theorem C6_transform_unfitted_and_bandwidth {pt : Type}
    (kernel : ℚ → pt → pt → ℚ)
    (project : OOSMethod → FittedModel pt → List (List ℚ) → List (List ℚ))
    (Y : List pt) :
    (∀ eps method, transform kernel project ⟨eps, method, none⟩ Y =
      .error .unfittedModelError) ∧
    (∀ eps eps' method fm,
      transform kernel project ⟨eps, method, some fm⟩ Y =
        transform kernel project ⟨eps', method, some fm⟩ Y) ∧
    (∀ eps method fm,
      transform kernel project ⟨eps, method, some fm⟩ Y =
        .ok (project method fm
          (oosKernelMatrix kernel fm.epsilonFitted Y fm.data))) :=
  ⟨fun _ _ => rfl, fun _ _ _ _ => rfl, fun _ _ _ => rfl⟩

/-- `C7`: fitting the target-measure (TMDmap) variant fails with
`InvalidMeasureError` if and only if the change-of-measure function returns
a negative or non-finite value for some fitted point; otherwise the fit
proceeds with the computed measure vector — no silent fallback. -/
theorem C7_tmdmap_invalid_measure {pt : Type}
    (q : pt → MeasureValue) (data : List pt) :
    (tmdmapFit q data = .error .invalidMeasureError ↔
      ∃ x ∈ data, (∃ v, q x = .finite v ∧ v < 0) ∨ q x = .nonfinite) ∧
    ((¬ ∃ x ∈ data, (∃ v, q x = .finite v ∧ v < 0) ∨ q x = .nonfinite) →
      tmdmapFit q data = .ok (data, data.map q)) := by
  have hbool : ∀ m : MeasureValue, invalidMeasure m = true ↔
      (∃ v, m = .finite v ∧ v < 0) ∨ m = .nonfinite := by
    intro m
    cases m with
    | finite v =>
      simp only [invalidMeasure, decide_eq_true_eq]
      constructor
      · intro hv
        exact Or.inl ⟨v, rfl, hv⟩
      · rintro (⟨w, hw, hneg⟩ | hnf)
        · have : v = w := by injection hw
          rwa [this]
        · exact MeasureValue.noConfusion hnf
    | nonfinite =>
      exact iff_of_true rfl (Or.inr rfl)
  have hcond : (data.map q).any invalidMeasure = true ↔
      ∃ x ∈ data, (∃ v, q x = .finite v ∧ v < 0) ∨ q x = .nonfinite := by
    rw [List.any_eq_true]
    constructor
    · rintro ⟨m, hm, hinv⟩
      obtain ⟨x, hx, rfl⟩ := List.mem_map.mp hm
      exact ⟨x, hx, (hbool _).mp hinv⟩
    · rintro ⟨x, hx, hv⟩
      exact ⟨q x, List.mem_map_of_mem q hx, (hbool _).mpr hv⟩
  have hiff : tmdmapFit q data = .error .invalidMeasureError ↔
      (data.map q).any invalidMeasure = true := by
    unfold tmdmapFit
    by_cases h : (data.map q).any invalidMeasure = true
    · simp [h]
    · simp [h]
  refine ⟨hiff.trans hcond, fun hno => ?_⟩
  unfold tmdmapFit
  rw [if_neg (fun h => hno (hcond.mp h))]

/-- Witness for `C7`: the constant measure `q = 1` on the two fitted points
`[0, 1]` is never negative or non-finite, and the fit succeeds with the
measure vector. -/
theorem C7_tmdmap_invalid_measure_witness :
    (¬ ∃ x ∈ ([0, 1] : List ℕ),
      (∃ v, (fun _ : ℕ => MeasureValue.finite 1) x = .finite v ∧ v < 0) ∨
        (fun _ : ℕ => MeasureValue.finite 1) x = .nonfinite) ∧
    tmdmapFit (fun _ : ℕ => MeasureValue.finite 1) [0, 1] =
      .ok ([0, 1], ([0, 1] : List ℕ).map (fun _ => MeasureValue.finite 1)) := by
  have hno : ¬ ∃ x ∈ ([0, 1] : List ℕ),
      (∃ v, (fun _ : ℕ => MeasureValue.finite 1) x = .finite v ∧ v < 0) ∨
        (fun _ : ℕ => MeasureValue.finite 1) x = .nonfinite := by
    rintro ⟨x, hx, ⟨v, hv, hneg⟩ | hnf⟩
    · have h1 : (1 : ℚ) = v := by injection hv
      rw [← h1] at hneg
      norm_num at hneg
    · exact MeasureValue.noConfusion hnf
  exact ⟨hno, (C7_tmdmap_invalid_measure _ _).2 hno⟩

/-- `C8`: the affinity matrix built over a neighbor graph has exactly the
graph's sparsity pattern — zero wherever no edge exists, and (for the
everywhere-positive Gaussian kernel) nonzero exactly on the edges — with
each stored edge value equal to `exp(-distance^2 / epsilon)` for the
default Gaussian kernel, or `weight_fxn(point_i, point_j)` for a custom
(non-negative) weight function, and all entries non-negative. -/
theorem C8_kernel_affinity {ι : Type} (edge : ι → ι → Bool)
    (eps : ℝ) (dist : ι → ι → ℝ) (w : ι → ι → ℚ)
    (hw : ∀ i j, 0 ≤ w i j) :
    (∀ i j, edge i j = true →
      buildAffinity edge (gaussianKernelValue eps dist) i j =
        Real.exp (-(dist i j) ^ 2 / eps)) ∧
    (∀ i j, edge i j = false →
      buildAffinity edge (gaussianKernelValue eps dist) i j = 0) ∧
    (∀ i j, buildAffinity edge (gaussianKernelValue eps dist) i j ≠ 0 ↔
      edge i j = true) ∧
    (∀ i j, 0 ≤ buildAffinity edge (gaussianKernelValue eps dist) i j) ∧
    (∀ i j, edge i j = true → buildAffinity edge w i j = w i j) ∧
    (∀ i j, edge i j = false → buildAffinity edge w i j = 0) ∧
    (∀ i j, buildAffinity edge w i j ≠ 0 → edge i j = true) ∧
    (∀ i j, 0 ≤ buildAffinity edge w i j) := by
  refine ⟨fun i j h => ?_, fun i j h => ?_, fun i j => ?_, fun i j => ?_,
    fun i j h => ?_, fun i j h => ?_, fun i j => ?_, fun i j => ?_⟩
  · unfold buildAffinity gaussianKernelValue
    rw [if_pos h]
  · unfold buildAffinity
    rw [if_neg (by rw [h]; exact Bool.false_ne_true)]
  · unfold buildAffinity gaussianKernelValue
    by_cases h : edge i j = true
    · rw [if_pos h]
      exact iff_of_true (Real.exp_pos _).ne' h
    · rw [if_neg h]
      exact iff_of_false (fun hc => hc rfl) h
  · unfold buildAffinity gaussianKernelValue
    by_cases h : edge i j = true
    · rw [if_pos h]
      exact (Real.exp_pos _).le
    · rw [if_neg h]
  · unfold buildAffinity
    rw [if_pos h]
  · unfold buildAffinity
    rw [if_neg (by rw [h]; exact Bool.false_ne_true)]
  · intro hnz
    by_contra h
    refine hnz ?_
    unfold buildAffinity
    rw [if_neg h]
  · unfold buildAffinity
    by_cases h : edge i j = true
    · rw [if_pos h]
      exact hw i j
    · rw [if_neg h]

/-- Witness for `C8`: on the two-node graph with edges exactly off the
diagonal, unit distances, `epsilon = 1` and the constant custom weight `2`,
all eight stated properties hold. -/
theorem C8_kernel_affinity_witness :
    (∀ i j : Fin 2, 0 ≤ (fun _ _ : Fin 2 => (2 : ℚ)) i j) ∧
    ((∀ i j : Fin 2, (fun a b : Fin 2 => decide (a ≠ b)) i j = true →
      buildAffinity (fun a b : Fin 2 => decide (a ≠ b))
          (gaussianKernelValue 1 (fun _ _ => 1)) i j =
        Real.exp (-((fun _ _ : Fin 2 => (1 : ℝ)) i j) ^ 2 / 1)) ∧
    (∀ i j : Fin 2, (fun a b : Fin 2 => decide (a ≠ b)) i j = false →
      buildAffinity (fun a b : Fin 2 => decide (a ≠ b))
          (gaussianKernelValue 1 (fun _ _ => 1)) i j = 0) ∧
    (∀ i j : Fin 2, buildAffinity (fun a b : Fin 2 => decide (a ≠ b))
          (gaussianKernelValue 1 (fun _ _ => 1)) i j ≠ 0 ↔
      (fun a b : Fin 2 => decide (a ≠ b)) i j = true) ∧
    (∀ i j : Fin 2, 0 ≤ buildAffinity (fun a b : Fin 2 => decide (a ≠ b))
        (gaussianKernelValue 1 (fun _ _ => 1)) i j) ∧
    (∀ i j : Fin 2, (fun a b : Fin 2 => decide (a ≠ b)) i j = true →
      buildAffinity (fun a b : Fin 2 => decide (a ≠ b))
          (fun _ _ : Fin 2 => (2 : ℚ)) i j = (fun _ _ : Fin 2 => (2 : ℚ)) i j) ∧
    (∀ i j : Fin 2, (fun a b : Fin 2 => decide (a ≠ b)) i j = false →
      buildAffinity (fun a b : Fin 2 => decide (a ≠ b))
          (fun _ _ : Fin 2 => (2 : ℚ)) i j = 0) ∧
    (∀ i j : Fin 2, buildAffinity (fun a b : Fin 2 => decide (a ≠ b))
          (fun _ _ : Fin 2 => (2 : ℚ)) i j ≠ 0 →
      (fun a b : Fin 2 => decide (a ≠ b)) i j = true) ∧
    (∀ i j : Fin 2, 0 ≤ buildAffinity (fun a b : Fin 2 => decide (a ≠ b))
        (fun _ _ : Fin 2 => (2 : ℚ)) i j)) := by
  have hw : ∀ i j : Fin 2, 0 ≤ (fun _ _ : Fin 2 => (2 : ℚ)) i j := by
    intro i j
    norm_num
  exact ⟨hw, C8_kernel_affinity (fun a b : Fin 2 => decide (a ≠ b)) 1
    (fun _ _ => 1) (fun _ _ => 2) hw⟩

end PyDiffMap
